import Mathlib

/-!
The echox response layer: encryption, path exclusion, indentation and identity
resolution.

A shallow embedding of `context.go` of `lilith44/echox`.

* Go `byte` is `Fin 256`; `[]byte` and `string` are `List Byte` (a Go string is a
  byte sequence, and `strings.HasPrefix` compares bytes).
* A Go `error` that may be `nil` is `Option Err`.
* A call that panics yields `none` (or the outcome `panicked`).
* Library collaborators (`encoding/hex`, `crypto/aes`, `crypto/cipher`,
  `encoding/json`, `jsoniter`, `echo`, `gox`) are modelled by their documented
  behaviour or taken as parameters; the AES block function itself is a parameter.
-/

namespace Echox

/-- Go `byte`. -/
abbrev Byte := Fin 256

/-- The bytes of an ASCII string literal, i.e. `[]byte(s)` for ASCII `s`. -/
def ascii (s : String) : List Byte :=
  s.data.map (fun c => Fin.ofNat c.toNat)

/-- The errors that can flow through this layer. `ext` stands for any error
produced by an external collaborator (JSON codec, response writer, token parser). -/
inductive Err where
  | InvalidByteError (b : Byte)
  | ErrLength
  | KeySizeError (n : Nat)
  | ext (tag : Nat)
  deriving DecidableEq, Repr

deriving instance DecidableEq for Except

/-! encoding/hex -/

/-- The table `hextable = "0123456789abcdef"` of `encoding/hex`. -/
def hextable : List Byte :=
  [48, 49, 50, 51, 52, 53, 54, 55, 56, 57, 97, 98, 99, 100, 101, 102]

/-- The table lookup `hextable[n]`. -/
def hexDigit (n : Nat) : Byte := hextable.getD n 0

/-- The function `hex.Encode`: every byte `v` becomes `hextable[v>>4]`, `hextable[v&0x0f]`. -/
def hexEncode : List Byte → List Byte
  | [] => []
  | v :: vs => hexDigit (v.val / 16) :: hexDigit (v.val % 16) :: hexEncode vs

/-- The function `hex.EncodedLen`. -/
def EncodedLen (n : Nat) : Nat := n * 2

/-- The function `fromHexChar` of `encoding/hex`: digits, lower and upper case letters. -/
def fromHexChar (c : Byte) : Option Nat :=
  if 48 ≤ c.val ∧ c.val ≤ 57 then some (c.val - 48)
  else if 97 ≤ c.val ∧ c.val ≤ 102 then some (c.val - 97 + 10)
  else if 65 ≤ c.val ∧ c.val ≤ 70 then some (c.val - 65 + 10)
  else none

/-- The function `hex.Decode` / `hex.DecodeString`: pairs of hex characters become
bytes `(a << 4) | b`; an invalid character is reported before an odd length. The
bytes decoded before a failure are not used by any caller here and are dropped. -/
def hexDecode : List Byte → Except Err (List Byte)
  | [] => .ok []
  | [p] =>
    match fromHexChar p with
    | none => .error (.InvalidByteError p)
    | some _ => .error .ErrLength
  | p :: q :: rest =>
    match fromHexChar p with
    | none => .error (.InvalidByteError p)
    | some a =>
      match fromHexChar q with
      | none => .error (.InvalidByteError q)
      | some b =>
        match hexDecode rest with
        | .error e => .error e
        | .ok ds => .ok (Fin.ofNat (a * 16 + b) :: ds)

/-! pkcs7Padding (context.go, lines 78-82) -/

/-- The function `pkcs7Padding`: `padding := size - len(data)%size`, then
`append(data, bytes.Repeat([]byte{byte(padding)}, padding)...)`. -/
def pkcs7Padding (data : List Byte) (size : Nat) : List Byte :=
  let padding := size - data.length % size
  data ++ List.replicate padding (Fin.ofNat padding)

/-! crypto/aes and crypto/cipher -/

/-- The constant `aes.BlockSize`, the value of `a.block.BlockSize()`. -/
def BlockSize : Nat := 16

/-- The AES block function, a parameter of the development: `E key block` is the
encryption of one block under `key`. Nothing about AES itself is assumed beyond what
a theorem states as a hypothesis. -/
abbrev BlockFn := List Byte → List Byte → List Byte

/-- The function `aes.NewCipher`: keys of 16, 24 or 32 bytes are accepted, any other
length is a `KeySizeError`. The handle it returns is determined by the key, so the
handle is represented by the key it was built from. -/
def NewCipher (key : List Byte) : Except Err (List Byte) :=
  if key.length = 16 ∨ key.length = 24 ∨ key.length = 32 then .ok key
  else .error (.KeySizeError key.length)

/-- The function `xorBytes` of `crypto/cipher`: byte-wise exclusive or. -/
def xorBytes (a b : List Byte) : List Byte := List.zipWith (fun x y => x ^^^ y) a b

/-- A CBC encrypter: the block handle (its key) and the running IV. -/
structure CBCEncrypter where
  b : List Byte
  iv : List Byte
  deriving DecidableEq, Repr

/-- The function `cipher.NewCBCEncrypter`: panics (`none`) when the IV is not one
block long. -/
def NewCBCEncrypter (b iv : List Byte) : Option CBCEncrypter :=
  if iv.length ≠ BlockSize then none else some ⟨b, iv⟩

/-- The loop of `cbcEncrypter.CryptBlocks`, run for `n` blocks: xor the next source
block with the running IV, encrypt it, and make the result the next IV. -/
def cryptLoop (E : BlockFn) (b : List Byte) : Nat → List Byte → List Byte → List Byte
  | 0, _, _ => []
  | n + 1, iv, src =>
    let c := E b (xorBytes (src.take BlockSize) iv)
    c ++ cryptLoop E b n c (src.drop BlockSize)

/-- The method `cbcEncrypter.CryptBlocks`: panics (`none`) when the source is not a
whole number of blocks; the loop runs while source bytes remain. -/
def CryptBlocks (E : BlockFn) (x : CBCEncrypter) (src : List Byte) : Option (List Byte) :=
  if src.length % BlockSize ≠ 0 then none
  else some (cryptLoop E x.b (src.length / BlockSize) x.iv src)

/-! AESConfig.Encrypt (context.go, lines 34-76) -/

/-- The struct `AESConfig`. `block` is `none` while the handle is `nil`. -/
structure AESConfig where
  block : Option (List Byte)
  Enable : Bool
  Key : List Byte
  ExcludeRouterPrefixes : List (List Byte)
  deriving DecidableEq, Repr

/-- The method `AESConfig.Encrypt`. `RandString n` is the string that
`gox.RandString(n)` returns in this call. The result is `none` when the call panics,
and otherwise the configuration after the call with the named results
`(hexed, err)`; `hexed` is `nil` (`[]`) on the early returns. -/
def Encrypt (E : BlockFn) (RandString : Nat → List Byte) (a : AESConfig)
    (plainText : List Byte) : Option (AESConfig × List Byte × Option Err) :=
  let built : Except Err (AESConfig × List Byte) :=
    match a.block with
    | some block => .ok (a, block)
    | none =>
      match hexDecode a.Key with
      | .error e => .error e
      | .ok hexKey =>
        match NewCipher hexKey with
        | .error e => .error e
        | .ok block => .ok ({ a with block := some block }, block)
  match built with
  | .error e => some (a, [], some e)
  | .ok (a, block) =>
    let plainText := pkcs7Padding plainText BlockSize
    let iv := RandString BlockSize
    match NewCBCEncrypter block iv with
    | none => none
    | some enc =>
      match CryptBlocks E enc plainText with
      | none => none
      | some cipherText => some (a, hexEncode (iv ++ cipherText), none)

/-! Decryption, as the claim describes it -/

/-- The inverse loop of CBC: decrypt each block and xor it with the previous
ciphertext block (the IV for the first one). -/
def decryptLoop (D : BlockFn) (b : List Byte) : Nat → List Byte → List Byte → List Byte
  | 0, _, _ => []
  | n + 1, iv, src =>
    let c := src.take BlockSize
    xorBytes (D b c) iv ++ decryptLoop D b n c (src.drop BlockSize)

/-- Stripping PKCS#7 padding: the last byte `k` says how many bytes to drop. -/
def pkcs7Unpadding (data : List Byte) : Option (List Byte) :=
  match data.getLast? with
  | none => none
  | some k =>
    if k.val = 0 ∨ data.length < k.val then none
    else some (data.take (data.length - k.val))

/-- Decryption as the round-trip claim words it: hex-decode the envelope, split it
into its first block-size bytes (the IV) and the rest (the ciphertext), CBC-decrypt
the ciphertext under the key with that IV, strip the PKCS#7 padding. -/
def Decrypt (D : BlockFn) (key : List Byte) (hexed : List Byte) : Option (List Byte) :=
  match hexDecode hexed with
  | .error _ => none
  | .ok raw =>
    let iv := raw.take BlockSize
    let cipherText := raw.drop BlockSize
    pkcs7Unpadding (decryptLoop D key (cipherText.length / BlockSize) iv cipherText)

/-- A toy block function used for concrete evaluations: xor every byte of the block
with the first key byte. It is its own inverse. -/
def toyBlock : BlockFn := fun key block => block.map (fun x => x ^^^ key.headD 0)

/-! strings.HasPrefix and the exclusion loop -/

/-- The function `strings.HasPrefix`: `len(s) >= len(p) && s[:len(p)] == p`. -/
def HasPrefix (s p : List Byte) : Bool :=
  decide (s.length ≥ p.length) && (s.take p.length == p)

/-- The loop of `EchoContext.JSON` over `ExcludeRouterPrefixes` (lines 159-166):
`exist` becomes true, and the loop breaks, at the first router that is a prefix of
the request URI. -/
def existLoop (requestURI : List Byte) : List (List Byte) → Bool
  | [] => false
  | router :: rest => if HasPrefix requestURI router then true else existLoop requestURI rest

/-! The response side of EchoContext (context.go, lines 157-254) -/

/-- The constant `defaultIndent`. -/
def defaultIndent : List Byte := ascii "  "

/-- The constant `echo.MIMETextPlain`. -/
def MIMETextPlain : List Byte := ascii "text/plain"

/-- The constant `echo.MIMEApplicationJSONCharsetUTF8`. -/
def MIMEApplicationJSONCharsetUTF8 : List Byte := ascii "application/json; charset=UTF-8"

/-- The constant `echo.MIMEApplicationJavaScriptCharsetUTF8`. -/
def MIMEApplicationJavaScriptCharsetUTF8 : List Byte :=
  ascii "application/javascript; charset=UTF-8"

/-- The indentation settings of a `jsoniter` encoder; a fresh encoder has none. -/
structure Encoder where
  pfx : List Byte
  indent : List Byte
  deriving DecidableEq, Repr

/-- The function `jsoniter.NewEncoder`. -/
def NewEncoder : Encoder := ⟨[], []⟩

/-- The method `Encoder.SetIndent`. -/
def Encoder.SetIndent (_ : Encoder) (pfx indent : List Byte) : Encoder := ⟨pfx, indent⟩

/-- The calls a response method makes to its collaborators, in order. -/
inductive Call (α : Type) where
  | Marshal (i : α)
  | Blob (code : Nat) (contentType : List Byte) (b : List Byte)
  | WriteHeader (code : Nat)
  | Write (b : List Byte)
  | Encode (enc : Encoder) (i : α)
  deriving DecidableEq, Repr

/-- How a call ends: it returns its `error` result, or it panics. -/
inductive Outcome where
  | returned (err : Option Err)
  | panicked
  deriving DecidableEq, Repr

/-- What a response method leaves behind: the AES configuration (its cipher handle
may have been built), the Content-Type header as `writeContentType` of this file
leaves it (what `echo.Context.Blob` does to the header belongs to the `Blob` call), the
calls made, and the outcome. -/
structure Result (α : Type) where
  aes : AESConfig
  ContentType : List Byte
  calls : List (Call α)
  out : Outcome
  deriving DecidableEq, Repr

/-- The struct `EchoContext` as far as the response methods read it, together with
the behaviour of its collaborators during the call: `RequestURI` is
`Request().RequestURI`, the request target as it stood on the request line, and
`Path` is `Request().URL.Path`, the path `net/http` parsed out of it (no method of
this file reads `Path`; it is there to say what the path of a request is);
`ContentType` is the current `Content-Type` response header (`""` when absent),
`Marshal` is `json.Marshal`, `RandString` is `gox.RandString`, `Blob` is the error
`echo.Context.Blob` returns, `Write` the error `Response().Write` returns and
`Encode` the error `enc.Encode` returns. -/
structure EchoContext (α : Type) where
  aes : AESConfig
  RequestURI : List Byte
  Path : List Byte
  Debug : Bool
  QueryParams : List (List Byte × List (List Byte))
  ContentType : List Byte
  Marshal : α → Except Err (List Byte)
  RandString : Nat → List Byte
  Blob : Nat → List Byte → List Byte → Option Err
  Write : List Byte → Option Err
  Encode : Encoder → α → Option Err

/-- The map lookup `_, ok := m[key]` on `url.Values`. -/
def hasKey (m : List (List Byte × List (List Byte))) (key : List Byte) : Bool :=
  m.any (fun kv => kv.1 == key)

/-- The method `writeContentType`: the header is set only when it is empty. -/
def writeContentType (header value : List Byte) : List Byte :=
  if header = [] then value else header

/-- The method `EchoContext.json` (lines 238-247). -/
def json {α : Type} (ec : EchoContext α) (code : Nat) (i : α) (indent : List Byte) :
    Result α :=
  let enc := NewEncoder
  let enc := if indent ≠ [] then enc.SetIndent [] indent else enc
  { aes := ec.aes
    ContentType := writeContentType ec.ContentType MIMEApplicationJSONCharsetUTF8
    calls := [.WriteHeader code, .Encode enc i]
    out := .returned (ec.Encode enc i) }

/-- The encrypted block of `EchoContext.JSON` (lines 169-180): marshal, encrypt,
write the blob and discard its error (`_ = ec.Blob(...)`), return. -/
def jsonEncrypted {α : Type} (E : BlockFn) (ec : EchoContext α) (code : Nat) (i : α) :
    Result α :=
  match ec.Marshal i with
  | .error e => ⟨ec.aes, ec.ContentType, [.Marshal i], .returned (some e)⟩
  | .ok data =>
    match Encrypt E ec.RandString ec.aes data with
    | none => ⟨ec.aes, ec.ContentType, [.Marshal i], .panicked⟩
    | some (aes, _, some e) => ⟨aes, ec.ContentType, [.Marshal i], .returned (some e)⟩
    | some (aes, data, none) =>
      ⟨aes, ec.ContentType, [.Marshal i, .Blob code MIMETextPlain data], .returned none⟩

/-- The tail of `EchoContext.JSON` (lines 184-188): choose the indent, call `json`. -/
def jsonPlain {α : Type} (ec : EchoContext α) (code : Nat) (i : α) : Result α :=
  let indent : List Byte :=
    if ec.Debug || hasKey ec.QueryParams (ascii "pretty") then defaultIndent else []
  json ec code i indent

/-- The method `EchoContext.JSON` (lines 157-189). -/
def JSON {α : Type} (E : BlockFn) (ec : EchoContext α) (code : Nat) (i : α) : Result α :=
  if ec.aes.Enable then
    let exist := existLoop ec.RequestURI ec.aes.ExcludeRouterPrefixes
    if !exist then jsonEncrypted E ec code i
    else jsonPlain ec code i
  else jsonPlain ec code i

/-- The method `EchoContext.jsonPBlob` (lines 217-236). -/
def jsonPBlob {α : Type} (ec : EchoContext α) (code : Nat) (callback : List Byte) (i : α) :
    Result α :=
  let enc := NewEncoder
  let pretty := hasKey ec.QueryParams (ascii "pretty")
  let enc := if ec.Debug || pretty then enc.SetIndent [] (ascii "  ") else enc
  let header := writeContentType ec.ContentType MIMEApplicationJavaScriptCharsetUTF8
  let open_ := callback ++ ascii "("
  match ec.Write open_ with
  | some e => ⟨ec.aes, header, [.WriteHeader code, .Write open_], .returned (some e)⟩
  | none =>
    match ec.Encode enc i with
    | some e =>
      ⟨ec.aes, header, [.WriteHeader code, .Write open_, .Encode enc i], .returned (some e)⟩
    | none =>
      ⟨ec.aes, header,
        [.WriteHeader code, .Write open_, .Encode enc i, .Write (ascii ");")],
        .returned (ec.Write (ascii ");"))⟩

/-- The method `EchoContext.JSONP` (lines 199-201). -/
def JSONP {α : Type} (ec : EchoContext α) (code : Nat) (callback : List Byte) (i : α) :
    Result α :=
  jsonPBlob ec code callback i

/-! Identity resolution (context.go, lines 84-115) -/

/-- The claims a token parses to: `*jwt.StandardClaims` with its `Subject`, or any
other dynamic type, on which the type assertion panics. -/
inductive Claims where
  | StandardClaims (Subject : List Byte)
  | other
  deriving DecidableEq, Repr

/-- The field `ec.jwt` with the collaborators the two methods call: the configured
token extractor, the token parser, `json.Unmarshal` into a user, and the zero user
that the named result starts as. `ρ` is the request, `υ` the user type. -/
structure JWTConfig (ρ υ : Type) where
  Extractor : ρ → Except Err (List Byte)
  Parse : List Byte → Except Err Claims
  Unmarshal : List Byte → υ → υ × Option Err
  zeroUser : υ

/-- The method `EchoContext.GetUserFromToken` (lines 104-115); `none` is a panic. -/
def GetUserFromToken {ρ υ : Type} (jwt : JWTConfig ρ υ) (token : List Byte) :
    Option (υ × Option Err) :=
  match jwt.Parse token with
  | .error e => some (jwt.zeroUser, some e)
  | .ok claims =>
    match claims with
    | .StandardClaims subject => some (jwt.Unmarshal subject jwt.zeroUser)
    | .other => none

/-- The method `EchoContext.User` (lines 84-102); `none` is a panic. -/
def User {ρ υ : Type} (jwt : JWTConfig ρ υ) (request : ρ) : Option (υ × Option Err) :=
  match jwt.Extractor request with
  | .error e => some (jwt.zeroUser, some e)
  | .ok token =>
    match jwt.Parse token with
    | .error e => some (jwt.zeroUser, some e)
    | .ok claims =>
      match claims with
      | .StandardClaims subject => some (jwt.Unmarshal subject jwt.zeroUser)
      | .other => none

/-! Derived descriptions used to state the properties -/

/-- The ciphertext that steps one to three of `Encrypt` produce for a handle built
from `key` and a drawn `iv`: the CBC loop over the padded plaintext. -/
def cipherTextOf (E : BlockFn) (key iv plainText : List Byte) : List Byte :=
  cryptLoop E key ((pkcs7Padding plainText BlockSize).length / BlockSize) iv
    (pkcs7Padding plainText BlockSize)

/-- A hex string: every character is accepted by `fromHexChar`. -/
def isHex (s : List Byte) : Bool := s.all (fun c => (fromHexChar c).isSome)

/-- A later use of a shared configuration: the `Key` field is overwritten with an
arbitrary value, then `Encrypt` is called. -/
structure LaterCall where
  Key : List Byte
  RandString : Nat → List Byte
  plainText : List Byte

/-- A sequence of later uses, each on the configuration the previous one left; the
full result of every `Encrypt` call is recorded, and a panic ends the run. -/
def runLater (E : BlockFn) : AESConfig → List LaterCall →
    List (Option (AESConfig × List Byte × Option Err))
  | _, [] => []
  | a, c :: cs =>
    match Encrypt E c.RandString { a with Key := c.Key } c.plainText with
    | none => [none]
    | some (a', hexed, err) => some (a', hexed, err) :: runLater E a' cs

/-! Concrete contexts used for evaluation -/

/-- A context whose response writer fails: encryption is enabled with a 64-character
hex key, nothing is excluded, marshalling succeeds, and `Blob` returns an error. -/
def failingBlobContext : EchoContext Nat :=
  { aes := ⟨none, true, List.replicate 64 49, []⟩
    RequestURI := ascii "/private/data"
    Path := ascii "/private/data"
    Debug := false
    QueryParams := []
    ContentType := []
    Marshal := fun _ => .ok (ascii "{}")
    RandString := fun _ => ascii "0123456789abcdef"
    Blob := fun _ _ _ => some (.ext 1)
    Write := fun _ => none
    Encode := fun _ _ => none }

/-- The request `GET http://example.com/public/ping HTTP/1.1` (absolute-form request
target) on a server that encrypts everything except the prefix `/public`: `net/http`
keeps the target as `RequestURI` and parses the path `/public/ping` out of it. -/
def absoluteTargetContext : EchoContext Nat :=
  { aes := ⟨none, true, List.replicate 64 49, [ascii "/public"]⟩
    RequestURI := ascii "http://example.com/public/ping"
    Path := ascii "/public/ping"
    Debug := false
    QueryParams := []
    ContentType := []
    Marshal := fun _ => .ok (ascii "{}")
    RandString := fun _ => ascii "0123456789abcdef"
    Blob := fun _ _ _ => none
    Write := fun _ => none
    Encode := fun _ _ => none }

end Echox

namespace Echox

/-! Lemmas on the hex codec, xor, padding and CBC -/

/-- Decoding a table character gives back its index. -/
theorem fromHexChar_hexDigit (n : Nat) (h : n < 16) : fromHexChar (hexDigit n) = some n := by
  interval_cases n <;> decide

/-- A byte is rebuilt from its two nibbles. -/
theorem byte_div_mod (v : Byte) : (Fin.ofNat (v.val / 16 * 16 + v.val % 16) : Byte) = v := by
  apply Fin.ext
  show (v.val / 16 * 16 + v.val % 16) % 256 = v.val
  have := v.isLt
  omega

/-- Hex decoding inverts hex encoding. -/
theorem hexDecode_hexEncode (l : List Byte) : hexDecode (hexEncode l) = .ok l := by
  induction l with
  | nil => rfl
  | cons v vs ih =>
    have h1 : v.val / 16 < 16 := by have := v.isLt; omega
    have h2 : v.val % 16 < 16 := Nat.mod_lt _ (by decide)
    simp only [hexEncode, hexDecode, fromHexChar_hexDigit _ h1, fromHexChar_hexDigit _ h2, ih,
      byte_div_mod]

/-- Hex encoding doubles the length. -/
theorem hexEncode_length (l : List Byte) : (hexEncode l).length = 2 * l.length := by
  induction l with
  | nil => rfl
  | cons v vs ih => simp only [hexEncode, List.length_cons, ih]; omega

/-- Hex encoding distributes over concatenation. -/
theorem hexEncode_append (l m : List Byte) : hexEncode (l ++ m) = hexEncode l ++ hexEncode m := by
  induction l with
  | nil => rfl
  | cons v vs ih => simp [hexEncode, ih]

/-- Xor with the same byte twice is the identity. -/
theorem byte_xor_cancel (x y : Byte) : (x ^^^ y) ^^^ y = x := by
  apply Fin.ext
  have hx := x.isLt
  have hy := y.isLt
  have hxy : x.val ^^^ y.val < 256 := Nat.xor_lt_two_pow (n := 8) hx hy
  show ((x.val ^^^ y.val) % 256 ^^^ y.val) % 256 = x.val
  rw [Nat.mod_eq_of_lt hxy, Nat.xor_assoc, Nat.xor_self, Nat.xor_zero, Nat.mod_eq_of_lt hx]

/-- Xor with the same block twice is the identity. -/
theorem xorBytes_cancel (a b : List Byte) (h : a.length = b.length) :
    xorBytes (xorBytes a b) b = a := by
  induction a generalizing b with
  | nil => simp [xorBytes]
  | cons x xs ih =>
    cases b with
    | nil => simp at h
    | cons y ys =>
      have := ih ys (by simpa using h)
      simp only [xorBytes] at this ⊢
      simp [byte_xor_cancel, this]

/-- The xor of two blocks of equal length has that length. -/
theorem xorBytes_length (a b : List Byte) (h : a.length = b.length) :
    (xorBytes a b).length = a.length := by
  simp [xorBytes, h]

/-- A padded input is a whole number of blocks. -/
theorem pkcs7Padding_length_mod (P : List Byte) (n : Nat) (h1 : 1 ≤ n) :
    (pkcs7Padding P n).length % n = 0 := by
  have hlt : P.length % n < n := Nat.mod_lt _ (by omega)
  simp only [pkcs7Padding, List.length_append, List.length_replicate]
  have hdm := Nat.div_add_mod P.length n
  have : P.length + (n - P.length % n) = n * (P.length / n + 1) := by
    rw [Nat.mul_add, Nat.mul_one]
    omega
  rw [this]
  exact Nat.mul_mod_right _ _

/-- Stripping the padding inverts padding. -/
theorem pkcs7Unpadding_pkcs7Padding (P : List Byte) (n : Nat) (h1 : 1 ≤ n) (h255 : n ≤ 255) :
    pkcs7Unpadding (pkcs7Padding P n) = some P := by
  have hlt : P.length % n < n := Nat.mod_lt _ (by omega)
  obtain ⟨k, hk⟩ : ∃ k, n - P.length % n = k + 1 := ⟨n - P.length % n - 1, by omega⟩
  have hval : (Fin.ofNat (k + 1) : Byte).val = k + 1 := by
    show (k + 1) % 256 = k + 1
    exact Nat.mod_eq_of_lt (by omega)
  have hlast : (pkcs7Padding P n).getLast? = some (Fin.ofNat (k + 1)) := by
    simp only [pkcs7Padding, hk]
    rw [List.replicate_succ', ← List.append_assoc, List.getLast?_append]
    simp
  have hlen : (pkcs7Padding P n).length = P.length + (k + 1) := by
    simp [pkcs7Padding, hk]
  unfold pkcs7Unpadding
  rw [hlast]
  simp only [hval, hlen]
  rw [if_neg (by omega)]
  simp [pkcs7Padding]

/-- The CBC loop over `n` blocks yields `n` blocks. -/
theorem cryptLoop_length (E : BlockFn) (k : List Byte)
    (hE : ∀ b : List Byte, b.length = BlockSize → (E k b).length = BlockSize) :
    ∀ (n : Nat) (iv src : List Byte), iv.length = BlockSize → src.length = n * BlockSize →
      (cryptLoop E k n iv src).length = n * BlockSize := by
  intro n
  induction n with
  | zero => intro iv src _ _; simp [cryptLoop]
  | succ n ih =>
    intro iv src hiv hsrc
    have htake : (src.take BlockSize).length = BlockSize := by
      rw [List.length_take, hsrc]; simp [Nat.succ_mul]
    have hx : (xorBytes (src.take BlockSize) iv).length = BlockSize := by
      rw [xorBytes_length _ _ (by rw [htake, hiv]), htake]
    have hc := hE _ hx
    have hdrop : (src.drop BlockSize).length = n * BlockSize := by
      rw [List.length_drop, hsrc, Nat.succ_mul]; simp
    simp only [cryptLoop, List.length_append, hc, ih _ _ hc hdrop]
    rw [Nat.succ_mul]; omega

/-- The CBC decryption loop inverts the CBC encryption loop. -/
theorem decryptLoop_cryptLoop (E D : BlockFn) (k : List Byte)
    (hE : ∀ b : List Byte, b.length = BlockSize → (E k b).length = BlockSize)
    (hD : ∀ b : List Byte, b.length = BlockSize → D k (E k b) = b) :
    ∀ (n : Nat) (iv src : List Byte), iv.length = BlockSize → src.length = n * BlockSize →
      decryptLoop D k n iv (cryptLoop E k n iv src) = src := by
  intro n
  induction n with
  | zero =>
    intro iv src _ hsrc
    have : src = [] := List.length_eq_zero.mp (by simpa using hsrc)
    simp [cryptLoop, decryptLoop, this]
  | succ n ih =>
    intro iv src hiv hsrc
    have htake : (src.take BlockSize).length = BlockSize := by
      rw [List.length_take, hsrc]; simp [Nat.succ_mul]
    have hx : (xorBytes (src.take BlockSize) iv).length = BlockSize := by
      rw [xorBytes_length _ _ (by rw [htake, hiv]), htake]
    have hc := hE _ hx
    have hdrop : (src.drop BlockSize).length = n * BlockSize := by
      rw [List.length_drop, hsrc, Nat.succ_mul]; simp
    simp only [cryptLoop, decryptLoop]
    rw [List.take_left' hc, List.drop_left' hc, hD _ hx,
      xorBytes_cancel _ _ (by rw [htake, hiv]), ih _ _ hc hdrop, List.take_append_drop]

/-! Lemmas on Encrypt -/

/-- With a handle in place and a one-block IV, `Encrypt` returns the envelope and
leaves the configuration as it is. -/
theorem Encrypt_built (E : BlockFn) (R : Nat → List Byte) (a : AESConfig)
    (key P : List Byte) (hb : a.block = some key) (hiv : (R BlockSize).length = BlockSize) :
    Encrypt E R a P
      = some (a, hexEncode (R BlockSize ++ cipherTextOf E key (R BlockSize) P), none) := by
  have hpad := pkcs7Padding_length_mod P BlockSize (by decide)
  simp [Encrypt, hb, NewCBCEncrypter, hiv, CryptBlocks, hpad, cipherTextOf]

/-- Without a handle, a `Key` decoding to 16, 24 or 32 bytes builds the handle and
yields the envelope. -/
theorem Encrypt_unbuilt (E : BlockFn) (R : Nat → List Byte) (a : AESConfig)
    (key P : List Byte) (hb : a.block = none) (hk : hexDecode a.Key = .ok key)
    (hlen : key.length = 16 ∨ key.length = 24 ∨ key.length = 32)
    (hiv : (R BlockSize).length = BlockSize) :
    Encrypt E R a P = some ({ a with block := some key },
      hexEncode (R BlockSize ++ cipherTextOf E key (R BlockSize) P), none) := by
  have hpad := pkcs7Padding_length_mod P BlockSize (by decide)
  simp [Encrypt, hb, hk, NewCipher, hlen, NewCBCEncrypter, hiv, CryptBlocks, hpad, cipherTextOf]

/-- Without a handle, a `Key` that fails to decode makes `Encrypt` return that error. -/
theorem Encrypt_decode_error (E : BlockFn) (R : Nat → List Byte) (a : AESConfig)
    (P : List Byte) (e : Err) (hb : a.block = none) (hk : hexDecode a.Key = .error e) :
    Encrypt E R a P = some (a, [], some e) := by
  simp [Encrypt, hb, hk]

/-- Without a handle, a decoded key of another length makes `Encrypt` return `KeySizeError`. -/
theorem Encrypt_keysize_error (E : BlockFn) (R : Nat → List Byte) (a : AESConfig)
    (key P : List Byte) (hb : a.block = none) (hk : hexDecode a.Key = .ok key)
    (hlen : ¬ (key.length = 16 ∨ key.length = 24 ∨ key.length = 32)) :
    Encrypt E R a P = some (a, [], some (.KeySizeError key.length)) := by
  simp [Encrypt, hb, hk, NewCipher, hlen]

/-- Inversion: a successful call had a handle `key` (kept or just built) and a
one-block IV, and its result is the hex envelope. -/
theorem Encrypt_success_inv (E : BlockFn) (R : Nat → List Byte) (a a' : AESConfig)
    (P hexed : List Byte) (h : Encrypt E R a P = some (a', hexed, none)) :
    ∃ key, (a.block = some key ∨ (a.block = none ∧ hexDecode a.Key = .ok key ∧
        (key.length = 16 ∨ key.length = 24 ∨ key.length = 32)))
      ∧ a' = { a with block := some key }
      ∧ (R BlockSize).length = BlockSize
      ∧ hexed = hexEncode (R BlockSize ++ cipherTextOf E key (R BlockSize) P) := by
  by_cases hiv : (R BlockSize).length = BlockSize
  · cases hb : a.block with
    | some key =>
      rw [Encrypt_built E R a key P hb hiv] at h
      simp only [Option.some.injEq, Prod.mk.injEq] at h
      refine ⟨key, Or.inl rfl, ?_, hiv, h.2.1.symm⟩
      rw [← h.1, ← hb]
    | none =>
      cases hk : hexDecode a.Key with
      | error e =>
        rw [Encrypt_decode_error E R a P e hb hk] at h
        simp at h
      | ok key =>
        by_cases hlen : key.length = 16 ∨ key.length = 24 ∨ key.length = 32
        · rw [Encrypt_unbuilt E R a key P hb hk hlen hiv] at h
          simp only [Option.some.injEq, Prod.mk.injEq] at h
          exact ⟨key, Or.inr ⟨rfl, rfl, hlen⟩, h.1.symm, hiv, h.2.1.symm⟩
        · rw [Encrypt_keysize_error E R a key P hb hk hlen] at h
          simp at h
  · exfalso
    cases hb : a.block with
    | some key => simp [Encrypt, hb, NewCBCEncrypter, hiv] at h
    | none =>
      cases hk : hexDecode a.Key with
      | error e =>
        rw [Encrypt_decode_error E R a P e hb hk] at h
        simp at h
      | ok key =>
        by_cases hlen : key.length = 16 ∨ key.length = 24 ∨ key.length = 32
        · simp [Encrypt, hb, hk, NewCipher, hlen, NewCBCEncrypter, hiv] at h
        · rw [Encrypt_keysize_error E R a key P hb hk hlen] at h
          simp at h

/-- The ciphertext is as long as the padded plaintext. -/
theorem cipherTextOf_length (E : BlockFn) (key iv P : List Byte)
    (hE : ∀ b : List Byte, b.length = BlockSize → (E key b).length = BlockSize)
    (hiv : iv.length = BlockSize) :
    (cipherTextOf E key iv P).length = (pkcs7Padding P BlockSize).length := by
  have hpad := pkcs7Padding_length_mod P BlockSize (by decide)
  have hmul : (pkcs7Padding P BlockSize).length
      = (pkcs7Padding P BlockSize).length / BlockSize * BlockSize := by
    have := Nat.div_add_mod (pkcs7Padding P BlockSize).length BlockSize
    rw [hpad] at this
    rw [Nat.mul_comm]; omega
  unfold cipherTextOf
  rw [cryptLoop_length E key hE _ _ _ hiv hmul, ← hmul]

/-- Decryption recovers the plaintext from an envelope. -/
theorem Decrypt_envelope (E D : BlockFn) (key iv P : List Byte)
    (hE : ∀ b : List Byte, b.length = BlockSize → (E key b).length = BlockSize)
    (hD : ∀ b : List Byte, b.length = BlockSize → D key (E key b) = b)
    (hiv : iv.length = BlockSize) :
    Decrypt D key (hexEncode (iv ++ cipherTextOf E key iv P)) = some P := by
  have hpad := pkcs7Padding_length_mod P BlockSize (by decide)
  have hmul : (pkcs7Padding P BlockSize).length
      = (pkcs7Padding P BlockSize).length / BlockSize * BlockSize := by
    have := Nat.div_add_mod (pkcs7Padding P BlockSize).length BlockSize
    rw [hpad] at this
    rw [Nat.mul_comm]; omega
  have hlen := cipherTextOf_length E key iv P hE hiv
  unfold Decrypt
  rw [hexDecode_hexEncode]
  simp only
  rw [List.take_left' hiv, List.drop_left' hiv, hlen]
  unfold cipherTextOf
  rw [decryptLoop_cryptLoop E D key hE hD _ _ _ hiv hmul]
  exact pkcs7Unpadding_pkcs7Padding P BlockSize (by decide) (by decide)

/-! Lemmas on keys, paths and the response methods -/

/-- The toy block function preserves length. -/
theorem toyBlock_length (key b : List Byte) : (toyBlock key b).length = b.length := by
  simp [toyBlock]

/-- The toy block function is its own inverse. -/
theorem toyBlock_involutive (key b : List Byte) : toyBlock key (toyBlock key b) = b := by
  simp [toyBlock, Function.comp_def, byte_xor_cancel]

/-- A string that decodes is a hex string of twice the decoded length. -/
theorem hexDecode_ok_inv : ∀ (s key : List Byte), hexDecode s = .ok key →
    isHex s = true ∧ s.length = 2 * key.length := by
  intro s
  induction s using hexDecode.induct with
  | case1 => intro key h; simp [hexDecode] at h; subst h; simp [isHex]
  | case2 p hp => intro key h; simp [hexDecode, hp] at h
  | case3 p x hp => intro key h; simp [hexDecode, hp] at h
  | case4 p q rest hp => intro key h; simp [hexDecode, hp] at h
  | case5 p q rest a hp hq => intro key h; simp [hexDecode, hp, hq] at h
  | case6 p q rest a hp b hq e he ih => intro key h; simp [hexDecode, hp, hq, he] at h
  | case7 p q rest a hp b hq ds hds ih =>
    intro key h
    simp [hexDecode, hp, hq, hds] at h
    subst h
    have := ih ds hds
    simp only [isHex, List.all_cons, hp, hq, Option.isSome_some, Bool.true_and,
      List.length_cons] at this ⊢
    exact ⟨this.1, by omega⟩

/-- A hex string of even length decodes. -/
theorem hexDecode_of_isHex : ∀ (s : List Byte), isHex s = true → s.length % 2 = 0 →
    ∃ key, hexDecode s = .ok key := by
  intro s
  induction s using hexDecode.induct with
  | case1 => intro _ _; exact ⟨[], rfl⟩
  | case2 p hp => intro _ h; simp at h
  | case3 p x hp => intro _ h; simp at h
  | case4 p q rest hp => intro h _; simp [isHex, hp] at h
  | case5 p q rest a hp hq => intro h _; simp [isHex, hq] at h
  | case6 p q rest a hp b hq e he ih =>
    intro h hl
    have h' : isHex rest = true := by
      simp only [isHex, List.all_cons, Bool.and_eq_true] at h ⊢
      exact h.2.2
    have hl' : rest.length % 2 = 0 := by
      simp only [List.length_cons] at hl; omega
    obtain ⟨k, hk⟩ := ih h' hl'
    rw [he] at hk
    cases hk
  | case7 p q rest a hp b hq ds hds ih =>
    intro _ _
    exact ⟨Fin.ofNat (a * 16 + b) :: ds, by simp [hexDecode, hp, hq, hds]⟩

/-- An envelope with a one-block IV is not empty. -/
theorem hexEncode_ne_nil_of_iv (iv ct : List Byte) (hiv : iv.length = BlockSize) :
    hexEncode (iv ++ ct) ≠ [] := by
  intro h
  have := congrArg List.length h
  rw [hexEncode_length, List.length_append, hiv] at this
  simp [BlockSize] at this

/-- On a built handle every later call yields the envelope under the handle's key. -/
theorem runLater_built (E : BlockFn) (key : List Byte) :
    ∀ (calls : List LaterCall) (a : AESConfig), a.block = some key →
      (∀ c ∈ calls, (c.RandString BlockSize).length = BlockSize) →
      runLater E a calls = calls.map (fun c =>
        some ({ a with Key := c.Key },
          hexEncode (c.RandString BlockSize
            ++ cipherTextOf E key (c.RandString BlockSize) c.plainText), none)) := by
  intro calls
  induction calls with
  | nil => intro a _ _; rfl
  | cons c cs ih =>
    intro a hb hiv
    have hc := hiv c (List.mem_cons_self _ _)
    have hstep := Encrypt_built E c.RandString { a with Key := c.Key } key c.plainText hb hc
    have hrest := ih { a with Key := c.Key } hb (fun c' hc' => hiv c' (List.mem_cons_of_mem _ hc'))
    simp only [runLater, hstep, List.map_cons, hrest]

/-- A call on a built handle returns the configuration unchanged. -/
theorem Encrypt_keeps_built (E : BlockFn) (R : Nat → List Byte) (a : AESConfig)
    (key P : List Byte) (hb : a.block = some key)
    (r : AESConfig × List Byte × Option Err) (h : Encrypt E R a P = some r) :
    r.1 = a := by
  by_cases hiv : (R BlockSize).length = BlockSize
  · rw [Encrypt_built E R a key P hb hiv] at h
    cases h; rfl
  · simp [Encrypt, hb, NewCBCEncrypter, hiv] at h

/-- The function `HasPrefix` decides the list prefix relation. -/
theorem HasPrefix_iff (s p : List Byte) : HasPrefix s p = true ↔ p <+: s := by
  simp only [HasPrefix, Bool.and_eq_true, decide_eq_true_eq, beq_iff_eq]
  constructor
  · rintro ⟨_, h⟩
    exact List.prefix_iff_eq_take.mpr h.symm
  · intro h
    exact ⟨h.length_le, (List.prefix_iff_eq_take.mp h).symm⟩

/-- The loop finds a router exactly when some router is a prefix of the URI. -/
theorem existLoop_iff (uri : List Byte) (routers : List (List Byte)) :
    existLoop uri routers = true ↔ ∃ p ∈ routers, p <+: uri := by
  induction routers with
  | nil => simp [existLoop]
  | cons r rs ih =>
    by_cases hr : HasPrefix uri r = true
    · simp only [existLoop, hr, if_true, true_iff]
      exact ⟨r, List.mem_cons_self _ _, (HasPrefix_iff uri r).mp hr⟩
    · have hnr : ¬ r <+: uri := fun h => hr ((HasPrefix_iff uri r).mpr h)
      simp only [existLoop, hr, if_false, ih, List.mem_cons, Bool.false_eq_true]
      constructor
      · rintro ⟨p, hp, hpu⟩
        exact ⟨p, Or.inr hp, hpu⟩
      · rintro ⟨p, hp | hp, hpu⟩
        · subst hp; exact absurd hpu hnr
        · exact ⟨p, hp, hpu⟩

/-- The loop finds nothing exactly when no router is a prefix of the URI. -/
theorem existLoop_false_iff (uri : List Byte) (routers : List (List Byte)) :
    existLoop uri routers = false ↔ ∀ p ∈ routers, ¬ p <+: uri := by
  rw [← Bool.not_eq_true, existLoop_iff]
  simp

/-- The encrypted block starts by marshalling the payload. -/
theorem jsonEncrypted_head {α : Type} (E : BlockFn) (ec : EchoContext α) (code : Nat) (i : α) :
    (jsonEncrypted E ec code i).calls.head? = some (.Marshal i) := by
  unfold jsonEncrypted
  split
  · rfl
  · split <;> rfl

/-- The calls of the plain tail. -/
theorem jsonPlain_calls {α : Type} (ec : EchoContext α) (code : Nat) (i : α) :
    (jsonPlain ec code i).calls = [.WriteHeader code,
      .Encode (if ec.Debug || hasKey ec.QueryParams (ascii "pretty")
        then ⟨[], ascii "  "⟩ else ⟨[], []⟩) i] := by
  by_cases h : (ec.Debug || hasKey ec.QueryParams (ascii "pretty")) = true
  · simp only [jsonPlain, json, h, if_true]
    rfl
  · simp only [jsonPlain, json, h, if_false]
    rfl

/-- With encryption enabled and no matching router, `JSON` is its encrypted block. -/
theorem JSON_encrypted {α : Type} (E : BlockFn) (ec : EchoContext α) (code : Nat) (i : α)
    (hen : ec.aes.Enable = true)
    (hex : ∀ p ∈ ec.aes.ExcludeRouterPrefixes, ¬ p <+: ec.RequestURI) :
    JSON E ec code i = jsonEncrypted E ec code i := by
  have := (existLoop_false_iff _ _).mpr hex
  simp [JSON, hen, this]

/-- Otherwise `JSON` is its plain tail. -/
theorem JSON_plain {α : Type} (E : BlockFn) (ec : EchoContext α) (code : Nat) (i : α)
    (h : ¬ (ec.aes.Enable = true
      ∧ ∀ p ∈ ec.aes.ExcludeRouterPrefixes, ¬ p <+: ec.RequestURI)) :
    JSON E ec code i = jsonPlain ec code i := by
  by_cases hen : ec.aes.Enable = true
  · have hx : existLoop ec.RequestURI ec.aes.ExcludeRouterPrefixes = true := by
      rw [← Bool.not_eq_false, existLoop_false_iff]
      exact fun hall => h ⟨hen, hall⟩
    simp [JSON, hen, hx]
  · simp [JSON, hen]

/-- On the encrypted path an error from marshalling the payload or from encrypting
it is returned as the error of `JSON`, and nothing is written. -/
theorem JSON_marshal_encrypt_errors {α : Type} (E : BlockFn) (ec : EchoContext α)
    (code : Nat) (i : α) (hen : ec.aes.Enable = true)
    (hex : ∀ p ∈ ec.aes.ExcludeRouterPrefixes, ¬ p <+: ec.RequestURI) :
    (∀ e, ec.Marshal i = .error e →
        (JSON E ec code i).out = .returned (some e)
        ∧ (JSON E ec code i).calls = [.Marshal i])
    ∧ (∀ data aes hexed e, ec.Marshal i = .ok data →
        Encrypt E ec.RandString ec.aes data = some (aes, hexed, some e) →
        (JSON E ec code i).out = .returned (some e)
        ∧ (JSON E ec code i).calls = [.Marshal i]) := by
  rw [JSON_encrypted E ec code i hen hex]
  refine ⟨?_, ?_⟩
  · intro e hm
    simp [jsonEncrypted, hm]
  · intro data aes hexed e hm henc
    simp [jsonEncrypted, hm, henc]

/-- The lookup succeeds exactly when the key has an entry, whatever its values. -/
theorem hasKey_iff (m : List (List Byte × List (List Byte))) (key : List Byte) :
    hasKey m key = true ↔ ∃ v, (key, v) ∈ m := by
  simp only [hasKey, List.any_eq_true, beq_iff_eq]
  constructor
  · rintro ⟨⟨k, v⟩, hmem, hk⟩
    exact ⟨v, by simpa [← hk] using hmem⟩
  · rintro ⟨v, hmem⟩
    exact ⟨(key, v), hmem, rfl⟩

/-- The condition of the indent branch, as a proposition. -/
theorem pretty_iff {α : Type} (ec : EchoContext α) :
    (ec.Debug || hasKey ec.QueryParams (ascii "pretty")) = true ↔
      (ec.Debug = true ∨ ∃ v, (ascii "pretty", v) ∈ ec.QueryParams) := by
  rw [Bool.or_eq_true, hasKey_iff]

/-- The encoder that `jsonPBlob` encodes with. -/
theorem jsonPBlob_encode {α : Type} (ec : EchoContext α) (code : Nat)
    (callback : List Byte) (i : α) :
    (∀ enc x, Call.Encode enc x ∈ (jsonPBlob ec code callback i).calls →
        x = i ∧ enc = (if ec.Debug || hasKey ec.QueryParams (ascii "pretty")
          then ⟨[], ascii "  "⟩ else ⟨[], []⟩))
    ∧ (ec.Write (callback ++ ascii "(") = none →
        Call.Encode (if ec.Debug || hasKey ec.QueryParams (ascii "pretty")
          then ⟨[], ascii "  "⟩ else ⟨[], []⟩) i ∈ (jsonPBlob ec code callback i).calls) := by
  have henc : (if (ec.Debug || hasKey ec.QueryParams (ascii "pretty")) = true
      then NewEncoder.SetIndent [] (ascii "  ") else NewEncoder)
      = (if (ec.Debug || hasKey ec.QueryParams (ascii "pretty")) = true
          then (⟨[], ascii "  "⟩ : Encoder) else ⟨[], []⟩) := by
    split <;> rfl
  constructor
  · intro enc x hmem
    unfold jsonPBlob at hmem
    simp only [henc] at hmem
    split at hmem
    · simp at hmem
    · split at hmem
      · simp at hmem
        exact ⟨hmem.2, by simpa using hmem.1⟩
      · simp at hmem
        exact ⟨hmem.2, by simpa using hmem.1⟩
  · intro hw
    unfold jsonPBlob
    simp only [henc, hw]
    split <;> simp

/-! The claims -/

/-- Claim C2. For every byte sequence `P` and block size `1 ≤ n ≤ 255`,
`pkcs7Padding P n` is `P` followed by exactly `k` bytes of value `k`, where
`k = n - len(P) mod n`; `1 ≤ k ≤ n`; `k` depends only on `len(P) mod n`; the length of
the result is a multiple of `n`; and an input whose length is already a multiple of
`n` gains a full block of `n` padding bytes. -/
theorem pkcs7Padding_spec (P : List Byte) (n : Nat) (h1 : 1 ≤ n) (h255 : n ≤ 255) :
    pkcs7Padding P n
        = P ++ List.replicate (n - P.length % n) (Fin.ofNat (n - P.length % n))
      ∧ (Fin.ofNat (n - P.length % n) : Byte).val = n - P.length % n
      ∧ 1 ≤ n - P.length % n ∧ n - P.length % n ≤ n
      ∧ (∀ Q : List Byte, Q.length % n = P.length % n →
          n - Q.length % n = n - P.length % n)
      ∧ (pkcs7Padding P n).length = P.length + (n - P.length % n)
      ∧ (pkcs7Padding P n).length % n = 0
      ∧ (P.length % n = 0 →
          pkcs7Padding P n = P ++ List.replicate n (Fin.ofNat n)) := by
  have hlt : P.length % n < n := Nat.mod_lt _ (by omega)
  refine ⟨rfl, ?_, by omega, by omega, ?_, ?_, ?_, ?_⟩
  · show (n - P.length % n) % 256 = n - P.length % n
    exact Nat.mod_eq_of_lt (by omega)
  · intro Q hQ
    rw [hQ]
  · simp [pkcs7Padding]
  · simp only [pkcs7Padding, List.length_append, List.length_replicate]
    have hdm := Nat.div_add_mod P.length n
    have : P.length + (n - P.length % n) = n * (P.length / n + 1) := by
      rw [Nat.mul_add, Nat.mul_one]
      omega
    rw [this]
    exact Nat.mul_mod_right _ _
  · intro h0
    simp [pkcs7Padding, h0]

/-- Witness for `pkcs7Padding_spec`: a three-byte input and block size 16. -/
theorem pkcs7Padding_spec_witness :
    pkcs7Padding [1, 2, 3] 16 = [1, 2, 3] ++ List.replicate 13 (13 : Byte) := by
  have h := (pkcs7Padding_spec [1, 2, 3] 16 (by decide) (by decide)).1
  simpa using h

/-- Claim C1. Round trip of `AESConfig.Encrypt`: for every plaintext `P`, every valid
key (a handle already built from `key`, or a `Key` field that hex-decodes to a `key`
of 16, 24 or 32 bytes) and every one-block IV drawn by the call, the call succeeds,
and hex-decoding its result, splitting it into the first block-size bytes and the
rest, CBC-decrypting the rest under the same key with that IV and stripping the
PKCS#7 padding yields exactly `P`. The block cipher is any length-preserving
invertible map of 16-byte blocks. -/
theorem Encrypt_Decrypt_roundtrip (E D : BlockFn) (R : Nat → List Byte) (a : AESConfig)
    (key P : List Byte)
    (hE : ∀ b : List Byte, b.length = BlockSize → (E key b).length = BlockSize)
    (hD : ∀ b : List Byte, b.length = BlockSize → D key (E key b) = b)
    (hkey : a.block = some key ∨ (a.block = none ∧ hexDecode a.Key = .ok key ∧
      (key.length = 16 ∨ key.length = 24 ∨ key.length = 32)))
    (hiv : (R BlockSize).length = BlockSize) :
    ∃ a' hexed, Encrypt E R a P = some (a', hexed, none)
      ∧ a'.block = some key
      ∧ (∃ raw, hexDecode hexed = .ok raw ∧ raw.take BlockSize = R BlockSize)
      ∧ Decrypt D key hexed = some P := by
  have hdec := Decrypt_envelope E D key (R BlockSize) P hE hD hiv
  have hraw : ∃ raw, hexDecode (hexEncode (R BlockSize ++ cipherTextOf E key (R BlockSize) P))
      = .ok raw ∧ raw.take BlockSize = R BlockSize :=
    ⟨_, hexDecode_hexEncode _, List.take_left' hiv⟩
  rcases hkey with hb | ⟨hb, hk, hlen⟩
  · exact ⟨_, _, Encrypt_built E R a key P hb hiv, hb, hraw, hdec⟩
  · exact ⟨_, _, Encrypt_unbuilt E R a key P hb hk hlen hiv, rfl, hraw, hdec⟩

/-- Witness for `Encrypt_Decrypt_roundtrip`: a fresh configuration with a 64-character
hex key, the toy block function, plaintext `"hi"`. -/
theorem Encrypt_Decrypt_roundtrip_witness :
    ∃ a' hexed,
      Encrypt toyBlock (fun _ => ascii "0123456789abcdef")
        ⟨none, true, ascii "a1000000000000000000000000000000000000000000000000000000000000ff", []⟩
        (ascii "hi") = some (a', hexed, none)
      ∧ a'.block = some (161 :: List.replicate 30 0 ++ [255])
      ∧ (∃ raw, hexDecode hexed = .ok raw ∧ raw.take BlockSize = ascii "0123456789abcdef")
      ∧ Decrypt toyBlock (161 :: List.replicate 30 0 ++ [255]) hexed = some (ascii "hi") :=
  Encrypt_Decrypt_roundtrip toyBlock toyBlock (fun _ => ascii "0123456789abcdef")
    ⟨none, true, ascii "a1000000000000000000000000000000000000000000000000000000000000ff", []⟩
    (161 :: List.replicate 30 0 ++ [255]) (ascii "hi")
    (fun b hb => by rw [toyBlock_length]; exact hb)
    (fun b _ => toyBlock_involutive _ b)
    (Or.inr ⟨rfl, by decide, by decide⟩) (by decide)

/-- Claim C3. The result of a successful `AESConfig.Encrypt` is the hex encoding of
`IV || ciphertext`, in that order: the IV is exactly one block (16 bytes), the
ciphertext is what `CryptBlocks` makes of the padded plaintext and is as long as it,
the first 32 hex characters decode to the IV, and the total length is
`2 * (16 + len(pkcs7Padding(P, 16)))`. -/
theorem Encrypt_envelope_shape (E : BlockFn) (R : Nat → List Byte) (a a' : AESConfig)
    (P hexed : List Byte)
    (hE : ∀ key b : List Byte, b.length = BlockSize → (E key b).length = BlockSize)
    (h : Encrypt E R a P = some (a', hexed, none)) :
    ∃ key cipherText, a'.block = some key
      ∧ (R BlockSize).length = 16
      ∧ CryptBlocks E ⟨key, R BlockSize⟩ (pkcs7Padding P 16) = some cipherText
      ∧ cipherText.length = (pkcs7Padding P 16).length
      ∧ hexed = hexEncode (R BlockSize ++ cipherText)
      ∧ hexDecode (hexed.take 32) = .ok (R BlockSize)
      ∧ hexed.length = 2 * (16 + (pkcs7Padding P 16).length) := by
  obtain ⟨key, _, ha', hiv, hhex⟩ := Encrypt_success_inv E R a a' P hexed h
  have hlen := cipherTextOf_length E key (R BlockSize) P (hE key) hiv
  have hpad := pkcs7Padding_length_mod P BlockSize (by decide)
  refine ⟨key, cipherTextOf E key (R BlockSize) P, by rw [ha'], hiv, ?_, hlen, hhex, ?_, ?_⟩
  · have hpad16 : (pkcs7Padding P 16).length % 16 = 0 := hpad
    simp [CryptBlocks, hpad16, cipherTextOf, BlockSize]
  · have h32 : (hexEncode (R BlockSize)).length = 32 := by
      rw [hexEncode_length, hiv]; rfl
    rw [hhex, hexEncode_append, List.take_left' h32, hexDecode_hexEncode]
  · rw [hhex, hexEncode_length, List.length_append, hiv, hlen]; rfl

/-- Witness for `Encrypt_envelope_shape`: the concrete envelope of plaintext `"hi"`. -/
theorem Encrypt_envelope_shape_witness :
    ∃ key cipherText,
      (AESConfig.mk (some (List.replicate 16 7)) true [] []).block = some key
      ∧ (ascii "0123456789abcdef").length = 16
      ∧ CryptBlocks toyBlock ⟨key, ascii "0123456789abcdef"⟩ (pkcs7Padding (ascii "hi") 16)
          = some cipherText
      ∧ cipherText.length = (pkcs7Padding (ascii "hi") 16).length
      ∧ ascii "303132333435363738396162636465665f5f3b3a3d3c3f3e3130686b6a6d6c6f"
          = hexEncode (ascii "0123456789abcdef" ++ cipherText)
      ∧ hexDecode ((ascii
          "303132333435363738396162636465665f5f3b3a3d3c3f3e3130686b6a6d6c6f").take 32)
          = .ok (ascii "0123456789abcdef")
      ∧ (ascii "303132333435363738396162636465665f5f3b3a3d3c3f3e3130686b6a6d6c6f").length
          = 2 * (16 + (pkcs7Padding (ascii "hi") 16).length) :=
  Encrypt_envelope_shape toyBlock (fun _ => ascii "0123456789abcdef")
    ⟨some (List.replicate 16 7), true, [], []⟩ ⟨some (List.replicate 16 7), true, [], []⟩
    (ascii "hi") (ascii "303132333435363738396162636465665f5f3b3a3d3c3f3e3130686b6a6d6c6f")
    (fun key b hb => by rw [toyBlock_length]; exact hb) (by decide)

/-- Claim C5, as the code has it. For a configuration whose handle is not built,
`Encrypt` succeeds (given a one-block IV draw) exactly when `Key` is a hex string of
32, 48 or 64 characters, i.e. decodes to 16, 24 or 32 bytes, and it then builds the
handle from the decoded key; for every other `Key` it returns an error, no
ciphertext (`hexed` stays `nil`) and leaves the configuration unchanged. -/
theorem Encrypt_key_check (E : BlockFn) (R : Nat → List Byte) (a : AESConfig)
    (P : List Byte) (hb : a.block = none) :
    ((isHex a.Key = true ∧ (a.Key.length = 32 ∨ a.Key.length = 48 ∨ a.Key.length = 64)) →
      (R BlockSize).length = BlockSize →
      ∃ key hexed, hexDecode a.Key = .ok key ∧ 2 * key.length = a.Key.length
        ∧ Encrypt E R a P = some ({ a with block := some key }, hexed, none) ∧ hexed ≠ [])
    ∧ (¬ (isHex a.Key = true ∧ (a.Key.length = 32 ∨ a.Key.length = 48 ∨ a.Key.length = 64)) →
      ∃ e, Encrypt E R a P = some (a, [], some e)) := by
  constructor
  · rintro ⟨hhex, hlen⟩ hiv
    obtain ⟨key, hk⟩ := hexDecode_of_isHex a.Key hhex (by omega)
    have hkl := (hexDecode_ok_inv a.Key key hk).2
    exact ⟨key, _, hk, hkl.symm, Encrypt_unbuilt E R a key P hb hk (by omega) hiv,
      hexEncode_ne_nil_of_iv _ _ hiv⟩
  · intro hnot
    cases hk : hexDecode a.Key with
    | error e => exact ⟨e, Encrypt_decode_error E R a P e hb hk⟩
    | ok key =>
      have hinv := hexDecode_ok_inv a.Key key hk
      refine ⟨_, Encrypt_keysize_error E R a key P hb hk ?_⟩
      intro hlen
      exact hnot ⟨hinv.1, by omega⟩

/-- Witness for `Encrypt_key_check`: a 63-character key is rejected. -/
theorem Encrypt_key_check_witness :
    ∃ e, Encrypt toyBlock (fun _ => ascii "0123456789abcdef")
      ⟨none, true, List.replicate 63 48, []⟩ (ascii "hi")
      = some (⟨none, true, List.replicate 63 48, []⟩, [], some e) :=
  (Encrypt_key_check toyBlock (fun _ => ascii "0123456789abcdef")
    ⟨none, true, List.replicate 63 48, []⟩ (ascii "hi") rfl).2 (by decide)

/-- Counterexample to claim C5 as stated: a 32-character hex key (16 bytes, not a
64-character hex string) on a configuration without a handle makes `Encrypt`
succeed and build the handle. -/
theorem Encrypt_key16_succeeds :
    (ascii "0f0e0d0c0b0a09080706050403020100").length = 32
    ∧ Encrypt toyBlock (fun _ => ascii "0123456789abcdef")
        ⟨none, true, ascii "0f0e0d0c0b0a09080706050403020100", []⟩ (ascii "hi")
      = some (⟨some [15, 14, 13, 12, 11, 10, 9, 8, 7, 6, 5, 4, 3, 2, 1, 0], true,
          ascii "0f0e0d0c0b0a09080706050403020100", []⟩,
        ascii "3031323334353637383961626364656657573332353437363938606362656467", none) := by
  decide

/-- Claim C8. Once one `Encrypt` call has succeeded on a configuration, the handle
built by that call (from the key then in force) is kept: every later call on the
configuration, whatever the `Key` field has been overwritten with, succeeds (given
one-block IV draws) and encrypts under that first key, leaving the handle in place;
and `Encrypt` never changes a configuration whose handle is already built. -/
theorem Encrypt_handle_reused (E : BlockFn) (R : Nat → List Byte) (a a1 : AESConfig)
    (P hexed : List Byte) (h : Encrypt E R a P = some (a1, hexed, none)) :
    ∃ key, a1.block = some key
      ∧ (a.block = some key ∨ (a.block = none ∧ hexDecode a.Key = .ok key))
      ∧ hexed = hexEncode (R BlockSize ++ cipherTextOf E key (R BlockSize) P)
      ∧ (∀ calls : List LaterCall,
          (∀ c ∈ calls, (c.RandString BlockSize).length = BlockSize) →
          runLater E a1 calls = calls.map (fun c =>
            some ({ a1 with Key := c.Key },
              hexEncode (c.RandString BlockSize
                ++ cipherTextOf E key (c.RandString BlockSize) c.plainText), none)))
      ∧ (∀ (b : AESConfig) (k : List Byte) (R' : Nat → List Byte) (P' : List Byte)
          (r : AESConfig × List Byte × Option Err),
          b.block = some k → Encrypt E R' b P' = some r → r.1 = b) := by
  obtain ⟨key, hkey, ha1, _, hhex⟩ := Encrypt_success_inv E R a a1 P hexed h
  have hb1 : a1.block = some key := by rw [ha1]
  refine ⟨key, hb1, ?_, hhex, fun calls hiv => runLater_built E key calls a1 hb1 hiv,
    fun b k R' P' r hb hr => Encrypt_keeps_built E R' b k P' hb r hr⟩
  rcases hkey with hb | ⟨hb, hk, _⟩
  · exact Or.inl hb
  · exact Or.inr ⟨hb, hk⟩

/-- Witness for `Encrypt_handle_reused`: a first call with a 32-character hex key. -/
theorem Encrypt_handle_reused_witness :
    ∃ key,
      (AESConfig.mk (some [15, 14, 13, 12, 11, 10, 9, 8, 7, 6, 5, 4, 3, 2, 1, 0]) true
        (ascii "0f0e0d0c0b0a09080706050403020100") []).block = some key
      ∧ ((AESConfig.mk none true (ascii "0f0e0d0c0b0a09080706050403020100") []).block = some key
        ∨ ((AESConfig.mk none true (ascii "0f0e0d0c0b0a09080706050403020100") []).block = none
          ∧ hexDecode (ascii "0f0e0d0c0b0a09080706050403020100") = .ok key))
      ∧ ascii "3031323334353637383961626364656657573332353437363938606362656467"
          = hexEncode (ascii "0123456789abcdef"
              ++ cipherTextOf toyBlock key (ascii "0123456789abcdef") (ascii "hi"))
      ∧ (∀ calls : List LaterCall,
          (∀ c ∈ calls, (c.RandString BlockSize).length = BlockSize) →
          runLater toyBlock
            (AESConfig.mk (some [15, 14, 13, 12, 11, 10, 9, 8, 7, 6, 5, 4, 3, 2, 1, 0]) true
              (ascii "0f0e0d0c0b0a09080706050403020100") []) calls
          = calls.map (fun c =>
            some ({ AESConfig.mk (some [15, 14, 13, 12, 11, 10, 9, 8, 7, 6, 5, 4, 3, 2, 1, 0])
                      true (ascii "0f0e0d0c0b0a09080706050403020100") [] with Key := c.Key },
              hexEncode (c.RandString BlockSize
                ++ cipherTextOf toyBlock key (c.RandString BlockSize) c.plainText), none)))
      ∧ (∀ (b : AESConfig) (k : List Byte) (R' : Nat → List Byte) (P' : List Byte)
          (r : AESConfig × List Byte × Option Err),
          b.block = some k → Encrypt toyBlock R' b P' = some r → r.1 = b) :=
  Encrypt_handle_reused toyBlock (fun _ => ascii "0123456789abcdef")
    ⟨none, true, ascii "0f0e0d0c0b0a09080706050403020100", []⟩
    ⟨some [15, 14, 13, 12, 11, 10, 9, 8, 7, 6, 5, 4, 3, 2, 1, 0], true,
      ascii "0f0e0d0c0b0a09080706050403020100", []⟩
    (ascii "hi") (ascii "3031323334353637383961626364656657573332353437363938606362656467")
    (by decide)

/-- Counterexample to claim C4 as stated: for the request target
`http://example.com/public/ping` the request path is `/public/ping`, of which the
configured `/public` is a prefix, yet `EchoContext.JSON` takes the encrypted path: it
marshals, encrypts and writes a `text/plain` blob, and is not the plain tail. -/
theorem JSON_absolute_target_encrypted :
    absoluteTargetContext.aes.Enable = true
    ∧ absoluteTargetContext.aes.ExcludeRouterPrefixes = [ascii "/public"]
    ∧ absoluteTargetContext.Path = ascii "/public/ping"
    ∧ HasPrefix absoluteTargetContext.Path (ascii "/public") = true
    ∧ absoluteTargetContext.RequestURI = ascii "http://example.com/public/ping"
    ∧ (JSON toyBlock absoluteTargetContext 200 0).calls
        = [.Marshal 0, .Blob 200 MIMETextPlain
            (ascii "303132333435363738396162636465665a5d2d2c2b2a292827267e7d7c7b7a79")]
    ∧ JSON toyBlock absoluteTargetContext 200 0 ≠ jsonPlain absoluteTargetContext 200 0 := by
  decide

/-- Claim C4, as the code has it. `EchoContext.JSON` takes the encrypted path (it
marshals the payload first and behaves as the encrypted block) if and only if
`Enable` is true and no string in `ExcludeRouterPrefixes` is a byte-wise,
case-sensitive prefix of the request's `RequestURI`, the request target as sent;
otherwise it takes the plain JSON path (it behaves as the plain tail and never
marshals for encryption). An empty list excludes nothing, the target `/admin/x` is
excluded by `["/admin"]`, `/adminx` is not excluded by `["/admin/"]`, `/public/ping` is
excluded by `["/public"]`, a prefix differing in case does not match, and with
encryption disabled the response is plain whatever the prefixes and target are. -/
theorem JSON_path_choice {α : Type} (E : BlockFn) (ec : EchoContext α) (code : Nat) (i : α) :
    ((ec.aes.Enable = true ∧ ∀ p ∈ ec.aes.ExcludeRouterPrefixes, ¬ p <+: ec.RequestURI) →
        JSON E ec code i = jsonEncrypted E ec code i)
    ∧ (¬ (ec.aes.Enable = true ∧ ∀ p ∈ ec.aes.ExcludeRouterPrefixes, ¬ p <+: ec.RequestURI) →
        JSON E ec code i = jsonPlain ec code i)
    ∧ ((JSON E ec code i).calls.head? = some (.Marshal i) ↔
        (ec.aes.Enable = true ∧ ∀ p ∈ ec.aes.ExcludeRouterPrefixes, ¬ p <+: ec.RequestURI))
    ∧ ((JSON E ec code i).calls.head? = some (.WriteHeader code) ↔
        ¬ (ec.aes.Enable = true ∧ ∀ p ∈ ec.aes.ExcludeRouterPrefixes, ¬ p <+: ec.RequestURI))
    ∧ (ec.aes.Enable = true → ec.aes.ExcludeRouterPrefixes = [] →
        JSON E ec code i = jsonEncrypted E ec code i)
    ∧ (ec.aes.Enable = true → ec.RequestURI = ascii "/admin/x" →
        ec.aes.ExcludeRouterPrefixes = [ascii "/admin"] →
        JSON E ec code i = jsonPlain ec code i)
    ∧ (ec.aes.Enable = true → ec.RequestURI = ascii "/adminx" →
        ec.aes.ExcludeRouterPrefixes = [ascii "/admin/"] →
        JSON E ec code i = jsonEncrypted E ec code i)
    ∧ (ec.aes.Enable = true → ec.RequestURI = ascii "/public/ping" →
        ec.aes.ExcludeRouterPrefixes = [ascii "/public"] →
        JSON E ec code i = jsonPlain ec code i)
    ∧ (ec.aes.Enable = true → ec.RequestURI = ascii "/Admin/x" →
        ec.aes.ExcludeRouterPrefixes = [ascii "/admin"] →
        JSON E ec code i = jsonEncrypted E ec code i)
    ∧ (ec.aes.Enable = false → JSON E ec code i = jsonPlain ec code i) := by
  have henc := JSON_encrypted E ec code i
  have hpl := JSON_plain E ec code i
  refine ⟨fun h => henc h.1 h.2, hpl, ?_, ?_, ?_, ?_, ?_, ?_, ?_, ?_⟩
  · constructor
    · intro hhead
      by_contra hc
      rw [hpl hc, jsonPlain_calls] at hhead
      simp at hhead
    · intro h
      rw [henc h.1 h.2]
      exact jsonEncrypted_head E ec code i
  · constructor
    · intro hhead hc
      rw [henc hc.1 hc.2, jsonEncrypted_head] at hhead
      simp at hhead
    · intro h
      rw [hpl h, jsonPlain_calls]
      rfl
  · intro hen hnil
    exact henc hen (by rw [hnil]; simp)
  · intro hen huri hps
    have hx : existLoop ec.RequestURI ec.aes.ExcludeRouterPrefixes = true := by
      rw [huri, hps]; decide
    simp [JSON, hen, hx]
  · intro hen huri hps
    have hx : existLoop ec.RequestURI ec.aes.ExcludeRouterPrefixes = false := by
      rw [huri, hps]; decide
    simp [JSON, hen, hx]
  · intro hen huri hps
    have hx : existLoop ec.RequestURI ec.aes.ExcludeRouterPrefixes = true := by
      rw [huri, hps]; decide
    simp [JSON, hen, hx]
  · intro hen huri hps
    have hx : existLoop ec.RequestURI ec.aes.ExcludeRouterPrefixes = false := by
      rw [huri, hps]; decide
    simp [JSON, hen, hx]
  · intro hen
    simp [JSON, hen]

/-- Claim C6, evaluated where it fails. On the encrypted path the write of the
encrypted body fails (`Blob` returns an error for the very body it is handed), yet
`EchoContext.JSON` returns `nil`: the claim asks for that error to be returned. -/
theorem JSON_blob_error_discarded :
    failingBlobContext.aes.Enable = true
    ∧ failingBlobContext.aes.ExcludeRouterPrefixes = []
    ∧ (JSON toyBlock failingBlobContext 200 0).calls
        = [.Marshal 0, .Blob 200 MIMETextPlain
            (ascii "303132333435363738396162636465665a5d2d2c2b2a292827267e7d7c7b7a79")]
    ∧ failingBlobContext.Blob 200 MIMETextPlain
        (ascii "303132333435363738396162636465665a5d2d2c2b2a292827267e7d7c7b7a79")
        = some (.ext 1)
    ∧ (JSON toyBlock failingBlobContext 200 0).out = .returned none := by
  decide

/-- Claim C7. On every plain-path call to `EchoContext.JSON`, and on every call to
`EchoContext.JSONP`, the encoder is given the fixed two-space indent if and only if
the server's `Debug` flag is set or the query parameters contain the key `pretty`
(whatever its values, also none); otherwise the encoder is used as created, with no
indentation set. -/
theorem indent_policy {α : Type} (E : BlockFn) (ec : EchoContext α) (code : Nat)
    (callback : List Byte) (i : α) :
    (¬ (ec.aes.Enable = true ∧ ∀ p ∈ ec.aes.ExcludeRouterPrefixes, ¬ p <+: ec.RequestURI) →
      ((ec.Debug = true ∨ ∃ v, (ascii "pretty", v) ∈ ec.QueryParams) →
        JSON E ec code i = json ec code i defaultIndent
        ∧ (JSON E ec code i).calls = [.WriteHeader code, .Encode ⟨[], ascii "  "⟩ i])
      ∧ (¬ (ec.Debug = true ∨ ∃ v, (ascii "pretty", v) ∈ ec.QueryParams) →
        JSON E ec code i = json ec code i []
        ∧ (JSON E ec code i).calls = [.WriteHeader code, .Encode NewEncoder i])
      ∧ (Call.Encode ⟨[], ascii "  "⟩ i ∈ (JSON E ec code i).calls ↔
          (ec.Debug = true ∨ ∃ v, (ascii "pretty", v) ∈ ec.QueryParams)))
    ∧ ((ec.Debug = true ∨ ∃ v, (ascii "pretty", v) ∈ ec.QueryParams) →
        (∀ enc x, Call.Encode enc x ∈ (JSONP ec code callback i).calls →
          enc = ⟨[], ascii "  "⟩)
        ∧ (ec.Write (callback ++ ascii "(") = none →
          Call.Encode ⟨[], ascii "  "⟩ i ∈ (JSONP ec code callback i).calls))
    ∧ (¬ (ec.Debug = true ∨ ∃ v, (ascii "pretty", v) ∈ ec.QueryParams) →
        (∀ enc x, Call.Encode enc x ∈ (JSONP ec code callback i).calls →
          enc = NewEncoder)
        ∧ (ec.Write (callback ++ ascii "(") = none →
          Call.Encode NewEncoder i ∈ (JSONP ec code callback i).calls)) := by
  have hP := jsonPBlob_encode ec code callback i
  refine ⟨?_, ?_, ?_⟩
  · intro hplain
    rw [JSON_plain E ec code i hplain]
    refine ⟨?_, ?_, ?_⟩
    · intro hp
      have hb := (pretty_iff ec).mpr hp
      refine ⟨by simp only [jsonPlain, hb, if_true], ?_⟩
      rw [jsonPlain_calls, if_pos hb]
    · intro hp
      have hb : ¬ (ec.Debug || hasKey ec.QueryParams (ascii "pretty")) = true :=
        fun h => hp ((pretty_iff ec).mp h)
      refine ⟨by simp [jsonPlain, hb], ?_⟩
      rw [jsonPlain_calls, if_neg hb]
      rfl
    · rw [jsonPlain_calls, ← pretty_iff]
      by_cases hb : (ec.Debug || hasKey ec.QueryParams (ascii "pretty")) = true
      · simp [hb]
      · simp only [hb, if_false, iff_false]
        simp
        decide
  · intro hp
    have hb := (pretty_iff ec).mpr hp
    rw [if_pos hb] at hP
    exact ⟨fun enc x hmem => (hP.1 enc x hmem).2, hP.2⟩
  · intro hp
    have hb : ¬ (ec.Debug || hasKey ec.QueryParams (ascii "pretty")) = true :=
      fun h => hp ((pretty_iff ec).mp h)
    rw [if_neg hb] at hP
    exact ⟨fun enc x hmem => (hP.1 enc x hmem).2, hP.2⟩

/-- Claim C9. `EchoContext.User` is token extraction followed by
`EchoContext.GetUserFromToken`: when the configured extractor fails, `User` returns
that error (with the zero user); when it yields token `t`, `User` returns what
`GetUserFromToken(t)` returns, the same user and the same error (and it panics
exactly when that call panics). -/
theorem User_eq_GetUserFromToken {ρ υ : Type} (jwt : JWTConfig ρ υ) (request : ρ) :
    (∀ e, jwt.Extractor request = .error e → User jwt request = some (jwt.zeroUser, some e))
    ∧ (∀ t, jwt.Extractor request = .ok t → User jwt request = GetUserFromToken jwt t) := by
  constructor
  · intro e h
    simp [User, h]
  · intro t h
    simp only [User, h, GetUserFromToken]

end Echox
